import Mathlib

/-!
# Chip Distribution Calculator — shallow embedding

A shallow embedding of the poker chip calculator core
(`suggestChipValues`, `calculateDistribution`, `validateChipValues`,
plus the pyramid-heuristic variant of the allocator found in the
repository) with theorems checking the natural-language specification
against the code.

Modelling conventions:
* JavaScript numbers are embedded as exact rationals `ℚ`
  (`Math.floor`/`Math.ceil`/`Math.round` become `jsFloor`/`jsCeil`/`jsRound`;
  `Math.round x` is `⌊x + 1/2⌋`, matching JS round-half-up).
* `Array.prototype.sort` with the numeric comparator is a stable ascending
  sort; it is embedded as stable insertion sort `insSort`.
* `[...new Set(xs)]` (first-occurrence deduplication in insertion order)
  is embedded as `jsSetDedup`.
* Warning/suggestion message strings are embedded as inductive values
  carrying the numeric payloads that the template strings interpolate.
* `Map` keyed by chip id is embedded as a total function `ℕ → ℚ`
  (all keys are initialised to `0` before use, matching the code).
-/

/-- `Math.floor`, as a rational-valued function (JS keeps numbers). -/
def jsFloor (q : ℚ) : ℚ := (⌊q⌋ : ℤ)

/-- `Math.ceil`, as a rational-valued function. -/
def jsCeil (q : ℚ) : ℚ := (⌈q⌉ : ℤ)

/-- `Math.round` as an integer: JS rounds half-up, i.e. `⌊x + 1/2⌋`. -/
def jsRoundZ (q : ℚ) : ℤ := ⌊q + 1/2⌋

/-- `Math.round`, as a rational-valued function. -/
def jsRound (q : ℚ) : ℚ := (jsRoundZ q : ℤ)

theorem jsCeil_eq_neg_floor (q : ℚ) : jsCeil q = -jsFloor (-q) := by
  simp [jsCeil, jsFloor, Int.floor_neg]

/-- Insert `a` into a list before the first element it compares `le` to.
Auxiliary for `insSort`. -/
def insTo (le : α → α → Bool) (a : α) : List α → List α
  | [] => [a]
  | b :: l => if le a b then a :: b :: l else b :: insTo le a l

/-- Stable ascending sort; embeds `Array.prototype.sort` with an
order-compatible comparator (stable per the ECMAScript spec). -/
def insSort (le : α → α → Bool) : List α → List α
  | [] => []
  | a :: l => insTo le a (insSort le l)

/-- Auxiliary for `jsSetDedup`: drop elements already `seen`. -/
def jsSetDedupAux [DecidableEq α] (seen : List α) : List α → List α
  | [] => []
  | a :: l => if a ∈ seen then jsSetDedupAux seen l else a :: jsSetDedupAux (a :: seen) l

/-- `[...new Set(xs)]`: keep the first occurrence of each element,
in insertion order. -/
def jsSetDedup [DecidableEq α] (l : List α) : List α := jsSetDedupAux [] l

section SortLemmas

variable {α : Type _} (le : α → α → Bool)

theorem insTo_perm (a : α) (l : List α) : (insTo le a l).Perm (a :: l) := by
  induction l with
  | nil => simp [insTo]
  | cons b l ih =>
    by_cases h : le a b
    · simp [insTo, h]
    · simp only [insTo, h, if_neg, Bool.false_eq_true, not_false_iff]
      exact ((ih.cons b).trans (List.Perm.swap a b l))

theorem insSort_perm (l : List α) : (insSort le l).Perm l := by
  induction l with
  | nil => simp [insSort]
  | cons a l ih => exact (insTo_perm le a (insSort le l)).trans (ih.cons a)

theorem insSort_length (l : List α) : (insSort le l).length = l.length :=
  (insSort_perm le l).length_eq

theorem insTo_pairwise (htot : ∀ a b, le a b = true ∨ le b a = true)
    (htrans : ∀ a b c, le a b = true → le b c = true → le a c = true)
    (a : α) (l : List α) (h : l.Pairwise (fun x y => le x y = true)) :
    (insTo le a l).Pairwise (fun x y => le x y = true) := by
  induction l with
  | nil => simp [insTo]
  | cons b l ih =>
    rcases h with _ | ⟨hb, hl⟩
    by_cases hab : le a b
    · rw [insTo, if_pos hab]
      refine (List.pairwise_cons).2 ⟨?_, (List.pairwise_cons).2 ⟨hb, hl⟩⟩
      intro x hx
      rcases List.mem_cons.1 hx with hx | hx
      · exact hx ▸ hab
      · exact htrans a b x hab (hb x hx)
    · rw [insTo, if_neg hab]
      refine (List.pairwise_cons).2 ⟨?_, ih hl⟩
      intro x hx
      rcases List.mem_cons.1 ((insTo_perm le a l).mem_iff.1 hx) with hm | hm
      · exact hm ▸ ((htot a b).resolve_left hab)
      · exact hb x hm

theorem insSort_pairwise (htot : ∀ a b, le a b = true ∨ le b a = true)
    (htrans : ∀ a b c, le a b = true → le b c = true → le a c = true)
    (l : List α) : (insSort le l).Pairwise (fun x y => le x y = true) := by
  induction l with
  | nil => simp [insSort]
  | cons a l ih => exact insTo_pairwise le htot htrans a (insSort le l) ih

theorem insSort_eq_self (l : List α) (h : l.Pairwise (fun x y => le x y = true)) :
    insSort le l = l := by
  induction l with
  | nil => rfl
  | cons a l ih =>
    rcases h with _ | ⟨ha, hl⟩
    rw [insSort, ih hl]
    cases l with
    | nil => rfl
    | cons b l => simp [insTo, ha b (by simp)]

end SortLemmas

section DedupLemmas

variable {α : Type _} [DecidableEq α]

theorem jsSetDedupAux_subset (seen : List α) (l : List α) :
    ∀ x ∈ jsSetDedupAux seen l, x ∈ l := by
  induction l generalizing seen with
  | nil => simp [jsSetDedupAux]
  | cons a l ih =>
    intro x hx
    rw [jsSetDedupAux] at hx
    by_cases h : a ∈ seen
    · rw [if_pos h] at hx
      exact List.mem_cons_of_mem a (ih seen x hx)
    · rw [if_neg h] at hx
      rcases List.mem_cons.1 hx with hx | hx
      · exact hx ▸ List.mem_cons_self a l
      · exact List.mem_cons_of_mem a (ih (a :: seen) x hx)

theorem jsSetDedupAux_not_mem_seen (seen : List α) (l : List α) :
    ∀ x ∈ jsSetDedupAux seen l, x ∉ seen := by
  induction l generalizing seen with
  | nil => simp [jsSetDedupAux]
  | cons a l ih =>
    intro x hx
    rw [jsSetDedupAux] at hx
    by_cases h : a ∈ seen
    · rw [if_pos h] at hx
      exact ih seen x hx
    · rw [if_neg h] at hx
      rcases List.mem_cons.1 hx with hx | hx
      · exact hx ▸ h
      · intro hseen
        exact ih (a :: seen) x hx (List.mem_cons_of_mem a hseen)

theorem jsSetDedupAux_nodup (seen : List α) (l : List α) :
    (jsSetDedupAux seen l).Nodup := by
  induction l generalizing seen with
  | nil => simp [jsSetDedupAux]
  | cons a l ih =>
    rw [jsSetDedupAux]
    by_cases h : a ∈ seen
    · rw [if_pos h]; exact ih seen
    · rw [if_neg h]
      refine List.nodup_cons.2 ⟨?_, ih (a :: seen)⟩
      intro hmem
      exact jsSetDedupAux_not_mem_seen (a :: seen) l a hmem (List.mem_cons_self a seen)

theorem jsSetDedupAux_eq_self (seen : List α) (l : List α) (h : l.Nodup)
    (hdisj : ∀ x ∈ l, x ∉ seen) : jsSetDedupAux seen l = l := by
  induction l generalizing seen with
  | nil => rfl
  | cons a l ih =>
    rcases List.nodup_cons.1 h with ⟨ha, hl⟩
    rw [jsSetDedupAux, if_neg (hdisj a (List.mem_cons_self a l))]
    rw [ih (a :: seen) hl]
    intro x hx
    intro hmem
    rcases List.mem_cons.1 hmem with hmem | hmem
    · exact ha (hmem ▸ hx)
    · exact hdisj x (List.mem_cons_of_mem a hx) hmem

theorem jsSetDedupAux_length_le (seen : List α) (l : List α) :
    (jsSetDedupAux seen l).length ≤ l.length := by
  induction l generalizing seen with
  | nil => simp [jsSetDedupAux]
  | cons a l ih =>
    rw [jsSetDedupAux]
    by_cases h : a ∈ seen
    · rw [if_pos h]
      exact le_trans (ih seen) (Nat.le_succ _)
    · rw [if_neg h]
      simpa using ih (a :: seen)

theorem jsSetDedup_nodup (l : List α) : (jsSetDedup l).Nodup :=
  jsSetDedupAux_nodup [] l

theorem jsSetDedup_eq_self (l : List α) (h : l.Nodup) : jsSetDedup l = l :=
  jsSetDedupAux_eq_self [] l h (by simp)

theorem jsSetDedup_length_le (l : List α) : (jsSetDedup l).length ≤ l.length :=
  jsSetDedupAux_length_le [] l

end DedupLemmas

/-! ## Data model -/

/-- A chip denomination from the caller's inventory
(`{id, color, name, quantity, value}`). -/
structure Chip where
  id : ℕ
  color : String
  name : String
  quantity : ℚ
  value : ℚ
deriving DecidableEq, Repr

/-- One line of a distribution result: the spread `{...chip, quantity, subtotal}`
(the inventory `quantity` field is overwritten by the allocated per-player
quantity). -/
structure Line where
  id : ℕ
  color : String
  name : String
  value : ℚ
  quantity : ℚ
  subtotal : ℚ
deriving DecidableEq, Repr

/-- Build an allocation line from a chip and a per-player quantity,
with `subtotal = quantity * value` as in the code. -/
def mkLine (c : Chip) (q : ℚ) : Line :=
  { id := c.id, color := c.color, name := c.name, value := c.value,
    quantity := q, subtotal := q * c.value }

/-- Warning messages pushed by `calculateDistribution`, as constructors
carrying the numeric payloads interpolated into the template strings. -/
inductive Warning where
  | noChipsDefined
  | buyInNotPositive
  | lowBuyIn (buyIn minRecommendedStack : ℚ)
  | short (diff : ℚ)
  | over (diff : ℚ)
  | fewChips (totalChips : ℚ)
  | stock (name : String) (totalNeeded available : ℚ)
  | smallestAboveBlind (smallestValue smallBlind : ℚ)
deriving DecidableEq, Repr

/-- The `recommendation` record of a distribution result. -/
structure Recommendation where
  minStack : ℚ
  idealChipCount : String
deriving DecidableEq, Repr

/-- The result of `calculateDistribution`.  The two early-exit returns in the
code omit the `totalChips` and `recommendation` keys, hence the `Option`s. -/
structure DistributionResult where
  distribution : List Line
  totalValue : ℚ
  totalChips : Option ℚ
  isValid : Bool
  warnings : List Warning
  recommendation : Option Recommendation
deriving DecidableEq, Repr

/-- The comparator `(a, b) => a.value - b.value` used to sort chips ascending. -/
def chipLE (a b : Chip) : Bool := a.value ≤ b.value

/-- `[...chips].sort((a, b) => a.value - b.value)`. -/
def sortChips (chips : List Chip) : List Chip := insSort chipLE chips

/-! ## `suggestChipValues` -/

/-- The static denomination pool, smallest to largest. -/
def allDenominations : List ℚ :=
  [1/4, 1/2, 1, 2, 5, 10, 20, 25, 50, 100, 250, 500, 1000, 2500, 5000]

/-- `suggestChipValues(smallBlind, buyIn, numChipTypes)`: propose chip values
for the given blind structure.  `numChipTypes` is a count, embedded as `ℕ`. -/
def suggestChipValues (smallBlind buyIn : ℚ) (numChipTypes : ℕ) : List ℚ :=
  let bigBlind := smallBlind * 2
  let isFractionalBlind := smallBlind < 1 ∨ bigBlind < 1
  let values :=
    if isFractionalBlind then
      -- fractional blinds: first two pushed values are SB and (if ≥ 2 slots) BB,
      -- then values from the pool strictly above BB and ≤ max(buyIn/2, 1)
      let maxValue := max (buyIn / 2) 1
      let remaining := allDenominations.filter (fun d => bigBlind < d ∧ d ≤ maxValue)
      ([smallBlind] ++ (if 2 ≤ numChipTypes then [bigBlind] else []))
        ++ remaining.take (numChipTypes - 2)
    else
      let minValue := min smallBlind 1
      let maxValue := max (buyIn / 2) (smallBlind * 2)
      let validDenoms :=
        allDenominations.filter (fun d => minValue ≤ d ∧ d ≤ maxValue ∧ d.den = 1)
      let validDenoms := if validDenoms.isEmpty then [1, 5, 10, 25, 100] else validDenoms
      if validDenoms.length ≤ numChipTypes then validDenoms
      else
        let step := ((validDenoms.length : ℚ) - 1) / ((numChipTypes : ℚ) - 1)
        (List.range numChipTypes).map
          (fun (i : ℕ) => validDenoms.getD (jsRoundZ ((i : ℚ) * step)).toNat 0)
  insSort (fun a b => a ≤ b) (jsSetDedup values)

/-! ## Claims about `suggestChipValues` -/

theorem allDenominations_sorted : allDenominations.Pairwise (· < ·) := by
  norm_num [allDenominations, List.pairwise_cons]

theorem ratLE_total (a b : ℚ) : (decide (a ≤ b)) = true ∨ (decide (b ≤ a)) = true := by
  rcases le_total a b with h | h
  · exact Or.inl (decide_eq_true h)
  · exact Or.inr (decide_eq_true h)

theorem ratLE_trans (a b c : ℚ) (h1 : (decide (a ≤ b)) = true)
    (h2 : (decide (b ≤ c)) = true) : (decide (a ≤ c)) = true :=
  decide_eq_true (le_trans (of_decide_eq_true h1) (of_decide_eq_true h2))

/-- **C7.** In fractional-blind mode (`smallBlind > 0`, `smallBlind < 1` or
`2*smallBlind < 1`) with at least two chip types requested, the output starts
with exactly `smallBlind` then exactly `bigBlind = 2*smallBlind`, and the
remaining slots take, in ascending order, the canonical pool values strictly
above `bigBlind` and at most `max(buyIn/2, 1)`, one per slot, stopping when
the pool runs out. -/
theorem suggest_fractional_shape (sb buyIn : ℚ) (n : ℕ)
    (hsb : 0 < sb) (hfrac : sb < 1 ∨ sb * 2 < 1) (hn : 2 ≤ n) :
    suggestChipValues sb buyIn n =
      sb :: sb * 2 ::
        (allDenominations.filter
          (fun d => sb * 2 < d ∧ d ≤ max (buyIn / 2) 1)).take (n - 2) := by
  have hlt : sb < sb * 2 := by linarith
  -- the list the code builds before dedup + sort
  have hvalues :
      suggestChipValues sb buyIn n =
        insSort (fun a b => a ≤ b)
          (jsSetDedup (sb :: sb * 2 ::
            (allDenominations.filter
              (fun d => sb * 2 < d ∧ d ≤ max (buyIn / 2) 1)).take (n - 2))) := by
    rw [suggestChipValues]
    rw [if_pos hfrac, if_pos hn]
    rfl
  -- every element taken from the pool is strictly above the big blind
  have htake : ∀ d ∈ (allDenominations.filter
      (fun d => sb * 2 < d ∧ d ≤ max (buyIn / 2) 1)).take (n - 2), sb * 2 < d := by
    intro d hd
    have hmem := List.mem_of_mem_take hd
    have := (List.mem_filter.1 hmem).2
    exact (of_decide_eq_true this).1
  -- the built list is strictly ascending
  have hpair : (sb :: sb * 2 ::
      (allDenominations.filter
        (fun d => sb * 2 < d ∧ d ≤ max (buyIn / 2) 1)).take (n - 2)).Pairwise (· < ·) := by
    refine List.pairwise_cons.2 ⟨?_, List.pairwise_cons.2 ⟨htake, ?_⟩⟩
    · intro d hd
      rcases List.mem_cons.1 hd with h | h
      · exact h ▸ hlt
      · exact lt_trans hlt (htake d h)
    · exact (allDenominations_sorted.filter _).sublist (List.take_sublist _ _)
  have hnodup : (sb :: sb * 2 ::
      (allDenominations.filter
        (fun d => sb * 2 < d ∧ d ≤ max (buyIn / 2) 1)).take (n - 2)).Nodup :=
    hpair.imp ne_of_lt
  rw [hvalues, jsSetDedup_eq_self _ hnodup]
  exact insSort_eq_self _ _ (hpair.imp fun h => decide_eq_true (le_of_lt h))

/-- Witness for C7 at `smallBlind = 1/2`, `buyIn = 50`, `numChipTypes = 4`. -/
theorem suggest_fractional_shape_witness :
    suggestChipValues (1/2) 50 4 =
      (1/2 : ℚ) :: (1/2 : ℚ) * 2 ::
        (allDenominations.filter
          (fun d => (1/2 : ℚ) * 2 < d ∧ d ≤ max ((50 : ℚ) / 2) 1)).take (4 - 2) :=
  suggest_fractional_shape (1/2) 50 4 (by norm_num) (by norm_num) (by norm_num)

/-- **C8 (counterexample).** With `numChipTypes = 0` in fractional-blind mode
the function still pushes the small blind, so the output length exceeds
`numChipTypes`: the claim "length is at most numChipTypes" fails as stated. -/
theorem suggest_length_claim_fails :
    ¬ (suggestChipValues (1/2) 50 0).length ≤ 0 := by
  have h : suggestChipValues (1/2) 50 0 = [1/2] := by
    rw [suggestChipValues]
    rw [if_pos (by norm_num : (1:ℚ)/2 < 1 ∨ (1:ℚ)/2 * 2 < 1)]
    norm_num [jsSetDedup, jsSetDedupAux, insSort, insTo]
  rw [h]
  norm_num

/-- **C8 (amended).** For every input, the output of `suggestChipValues` is
strictly ascending (hence duplicate-free), and its length is at most
`numChipTypes` provided at least one chip type is requested (with
`numChipTypes = 0` the fractional-blind branch still returns the small
blind, so the bound needs `1 ≤ numChipTypes`); the function is total, so it
never throws. -/
theorem suggest_sorted_nodup_length (sb buyIn : ℚ) (n : ℕ) :
    (suggestChipValues sb buyIn n).Pairwise (· < ·) ∧
      (suggestChipValues sb buyIn n).Nodup ∧
      (1 ≤ n → (suggestChipValues sb buyIn n).length ≤ n) := by
  have hnodup : (suggestChipValues sb buyIn n).Nodup := by
    rw [suggestChipValues]
    exact ((insSort_perm _ _).nodup_iff).2 (jsSetDedup_nodup _)
  have hle : (suggestChipValues sb buyIn n).Pairwise
      (fun a b => (decide (a ≤ b)) = true) := by
    rw [suggestChipValues]
    exact insSort_pairwise _ ratLE_total ratLE_trans _
  have hpair : (suggestChipValues sb buyIn n).Pairwise (· < ·) :=
    (hle.and hnodup).imp (fun ⟨h1, h2⟩ => lt_of_le_of_ne (of_decide_eq_true h1) h2)
  refine ⟨hpair, hnodup, ?_⟩
  intro hn
  rw [suggestChipValues]
  refine le_trans (le_of_eq (insSort_length _ _)) (le_trans (jsSetDedup_length_le _) ?_)
  by_cases hfrac : sb < 1 ∨ sb * 2 < 1
  · rw [if_pos hfrac]
    have htk := List.length_take_le (n - 2)
      (allDenominations.filter (fun d => decide (sb * 2 < d ∧ d ≤ max (buyIn / 2) 1)))
    by_cases h2 : 2 ≤ n
    · rw [if_pos h2]
      simp only [List.length_append, List.length_cons, List.length_nil,
        List.singleton_append]
      omega
    · rw [if_neg h2]
      simp only [List.length_append, List.length_cons, List.length_nil,
        List.singleton_append]
      omega
  · rw [if_neg hfrac]
    by_cases hlen :
        (if (allDenominations.filter
            (fun d => min sb 1 ≤ d ∧ d ≤ max (buyIn / 2) (sb * 2) ∧ d.den = 1)).isEmpty
          then ([1, 5, 10, 25, 100] : List ℚ)
          else allDenominations.filter
            (fun d => min sb 1 ≤ d ∧ d ≤ max (buyIn / 2) (sb * 2) ∧ d.den = 1)).length ≤ n
    · rw [if_pos hlen]
      exact hlen
    · rw [if_neg hlen]
      rw [List.length_map, List.length_range]

/-- Witness for the length bound of the amended C8 at a concrete input. -/
theorem suggest_sorted_nodup_length_witness :
    (suggestChipValues (1/2) 50 4).Pairwise (· < ·) ∧
      (suggestChipValues (1/2) 50 4).Nodup ∧
      (1 ≤ 4 → (suggestChipValues (1/2) 50 4).length ≤ 4) :=
  suggest_sorted_nodup_length (1/2) 50 4

/-! ## `validateChipValues` -/

/-- Suggestion messages produced by `validateChipValues`, as constructors
carrying the payloads interpolated into the template strings. -/
inductive Suggestion where
  | addChipType
  | smallestTooBig (smallestValue smallBlind : ℚ)
  | blindChip (smallBlind : ℚ)
  | largeGap (lowerName upperName : String)
deriving DecidableEq, Repr

/-- The result of `validateChipValues`. -/
structure ValidationResult where
  isOptimal : Bool
  suggestions : List Suggestion
deriving DecidableEq, Repr

/-- `validateChipValues(smallBlind, buyIn, chips)`: advisory diagnostics,
independent of the allocator. -/
def validateChipValues (smallBlind _buyIn : ℚ) (chips : List Chip) : ValidationResult :=
  if chips.isEmpty then { isOptimal := false, suggestions := [.addChipType] }
  else
    let sortedChips := sortChips chips
    match sortedChips with
    | [] => { isOptimal := false, suggestions := [.addChipType] }
    | c :: rest =>
      let suggestions :=
        (if c.value > smallBlind then [Suggestion.smallestTooBig c.value smallBlind] else [])
        ++ (if ¬ (c :: rest).any (fun x => x.value ≤ smallBlind * 2)
            then [Suggestion.blindChip smallBlind] else [])
        ++ ((c :: rest).zip rest).filterMap
            (fun p => if p.2.value / p.1.value > 10
              then some (Suggestion.largeGap p.1.name p.2.name) else none)
      { isOptimal := suggestions.isEmpty, suggestions := suggestions }

/-- **C9.** For non-empty inventories, after sorting ascending by value, a
"smallest chip too big" suggestion is emitted iff the cheapest value exceeds
the small blind, a "blind chip" suggestion iff no denomination is ≤ twice the
small blind, and a "large gap" suggestion for each ascending-adjacent pair
with value ratio above 10; `isOptimal` holds exactly when no suggestion was
emitted.  Empty inventories yield `isOptimal = false` with the single
"add at least one chip type" suggestion. -/
theorem validate_characterization (sb b : ℚ) (chips : List Chip) :
    (chips = [] → validateChipValues sb b chips =
      { isOptimal := false, suggestions := [.addChipType] }) ∧
    (∀ c rest, sortChips chips = c :: rest →
      (validateChipValues sb b chips).suggestions =
        ((if sb < c.value then [Suggestion.smallestTooBig c.value sb] else [])
          ++ (if ∀ x ∈ c :: rest, ¬ x.value ≤ sb * 2
              then [Suggestion.blindChip sb] else [])
          ++ ((c :: rest).zip rest).filterMap
              (fun p => if 10 < p.2.value / p.1.value
                then some (Suggestion.largeGap p.1.name p.2.name) else none)) ∧
      ((validateChipValues sb b chips).isOptimal = true ↔
        (validateChipValues sb b chips).suggestions = [])) := by
  constructor
  · intro h
    subst h
    rfl
  · intro c rest hsort
    have hne : chips ≠ [] := by
      intro h
      subst h
      simp [sortChips, insSort] at hsort
    have hres : validateChipValues sb b chips =
        { isOptimal :=
            ((if c.value > sb then [Suggestion.smallestTooBig c.value sb] else [])
              ++ (if ¬ (c :: rest).any (fun x => x.value ≤ sb * 2)
                  then [Suggestion.blindChip sb] else [])
              ++ ((c :: rest).zip rest).filterMap
                  (fun p => if p.2.value / p.1.value > 10
                    then some (Suggestion.largeGap p.1.name p.2.name) else none)).isEmpty,
          suggestions :=
            ((if c.value > sb then [Suggestion.smallestTooBig c.value sb] else [])
              ++ (if ¬ (c :: rest).any (fun x => x.value ≤ sb * 2)
                  then [Suggestion.blindChip sb] else [])
              ++ ((c :: rest).zip rest).filterMap
                  (fun p => if p.2.value / p.1.value > 10
                    then some (Suggestion.largeGap p.1.name p.2.name) else none)) } := by
      rw [validateChipValues, if_neg (by simpa [List.isEmpty_iff] using hne)]
      rw [hsort]
    rw [hres]
    refine ⟨?_, ?_⟩
    · have hany : (¬ (c :: rest).any (fun x => x.value ≤ sb * 2)) ↔
          (∀ x ∈ c :: rest, ¬ x.value ≤ sb * 2) := by
        simp [List.any_eq_true]
      by_cases h2 : ∀ x ∈ c :: rest, ¬ x.value ≤ sb * 2
      · rw [if_pos (hany.2 h2), if_pos h2]
      · rw [if_neg (fun hc => h2 (hany.1 hc)), if_neg h2]
    · simp [List.isEmpty_iff]

/-- Witness for C9 at a nonempty concrete inventory (spec scenario E). -/
theorem validate_characterization_witness :
    (validateChipValues 1 50 [⟨0, "red", "Red", 100, 5⟩]).suggestions =
      ((if (1 : ℚ) < (5 : ℚ) then [Suggestion.smallestTooBig 5 1] else [])
        ++ (if ∀ x ∈ [(⟨0, "red", "Red", 100, 5⟩ : Chip)], ¬ x.value ≤ (1 : ℚ) * 2
            then [Suggestion.blindChip 1] else [])
        ++ (([(⟨0, "red", "Red", 100, 5⟩ : Chip)].zip ([] : List Chip)).filterMap
            (fun p => if 10 < p.2.value / p.1.value
              then some (Suggestion.largeGap p.1.name p.2.name) else none))) ∧
    ((validateChipValues 1 50 [⟨0, "red", "Red", 100, 5⟩]).isOptimal = true ↔
      (validateChipValues 1 50 [⟨0, "red", "Red", 100, 5⟩]).suggestions = []) :=
  (validate_characterization 1 50 [⟨0, "red", "Red", 100, 5⟩]).2
    ⟨0, "red", "Red", 100, 5⟩ [] rfl

/-! ## `calculateDistribution` (greedy-fill allocator, main source file) -/

/-- `Map.prototype.set` on the id-keyed allocation map. -/
def setA (m : ℕ → ℚ) (i : ℕ) (x : ℚ) : ℕ → ℚ := fun j => if j = i then x else m j

/-- Reserve pass of STEP 1 over the middle chips (all but smallest and
largest): reserve `min(10, cap)` each, accumulating the reserved value. -/
def reserveMiddles (numPlayers : ℚ) : List Chip → (ℕ → ℚ) → ℚ → ((ℕ → ℚ) × ℚ)
  | [], m, reserved => (m, reserved)
  | c :: rest, m, reserved =>
    let maxQty := jsFloor (c.quantity / numPlayers)
    let reserveQty := min 10 maxQty
    reserveMiddles numPlayers rest (setA m c.id reserveQty) (reserved + reserveQty * c.value)

/-- STEP 2: fill remaining value processing chips in the given order
(called with the reversed sorted list, i.e. largest first); the JS `for`
loop exits as soon as `remaining ≤ 0`. -/
def fillLoop (numPlayers : ℚ) : List Chip → (ℕ → ℚ) → ℚ → ((ℕ → ℚ) × ℚ)
  | [], m, remaining => (m, remaining)
  | c :: rest, m, remaining =>
    if remaining > 0 then
      let currentQty := m c.id
      let maxQty := jsFloor (c.quantity / numPlayers)
      let available := maxQty - currentQty
      let canFit := jsFloor (remaining / c.value)
      let addQty := min available canFit
      if addQty > 0 then
        fillLoop numPlayers rest (setA m c.id (currentQty + addQty))
          (remaining - addQty * c.value)
      else fillLoop numPlayers rest m remaining
    else (m, remaining)

/-- STEP 4 inner greedy removal: walk the chips largest-to-smallest looking
for allocated chips summing to the overshoot.  Returns the `toRemove`
association list (in `Map` insertion order) and the residual amount. -/
def removalLoop (m : ℕ → ℚ) : List Chip → List (ℕ × ℚ) → ℚ → (List (ℕ × ℚ) × ℚ)
  | [], toRemove, removeRemaining => (toRemove, removeRemaining)
  | c :: rest, toRemove, removeRemaining =>
    if c.value ≤ removeRemaining then
      let alloc := m c.id
      let take := min alloc (jsFloor (removeRemaining / c.value))
      if take > 0 then
        removalLoop m rest (toRemove ++ [(c.id, take)]) (removeRemaining - take * c.value)
      else removalLoop m rest toRemove removeRemaining
    else removalLoop m rest toRemove removeRemaining

/-- STEP 4 outer loop: try each chip ascending; on the first chip with spare
capacity whose value covers the remaining gap and whose overshoot can be
removed exactly (tolerance 0.01), perform the swap and stop. -/
def upgradeLoop (numPlayers remaining : ℚ) (sortedChips : List Chip) :
    List Chip → (ℕ → ℚ) → ((ℕ → ℚ) × ℚ)
  | [], m => (m, remaining)
  | c :: rest, m =>
    let currentQty := m c.id
    let maxQty := jsFloor (c.quantity / numPlayers)
    if currentQty < maxQty ∧ c.value > remaining then
      let overshoot := c.value - remaining
      let (toRemove, removeRemaining) :=
        removalLoop m sortedChips.reverse [] overshoot
      if |removeRemaining| < 1/100 then
        let m₁ := setA m c.id (currentQty + 1)
        let m₂ := toRemove.foldl (fun acc p => setA acc p.1 (acc p.1 - p.2)) m₁
        (m₂, 0)
      else upgradeLoop numPlayers remaining sortedChips rest m
    else upgradeLoop numPlayers remaining sortedChips rest m

/-- The ≥3-denomination greedy-fill allocation (STEPs 1–4 of the main
source file), producing the id-keyed allocation map. -/
def greedyAlloc (buyIn numPlayers : ℚ) (sortedChips : List Chip) : ℕ → ℚ :=
  match sortedChips with
  | [] => fun _ => 0
  | smallest :: _ =>
    let m0 : ℕ → ℚ := fun _ => 0
    let smallestMaxQty := jsFloor (smallest.quantity / numPlayers)
    -- STEP 1: smallest reserves min(20, cap); middles reserve min(10, cap)
    let smallestReserve := min 20 smallestMaxQty
    let m1 := setA m0 smallest.id smallestReserve
    let reserved1 := smallestReserve * smallest.value
    let (m2, reserved2) :=
      reserveMiddles numPlayers (sortedChips.drop 1).dropLast m1 reserved1
    -- STEP 2: fill from largest down
    let (m3, remaining3) := fillLoop numPlayers sortedChips.reverse m2 (buyIn - reserved2)
    -- STEP 3: top off with the smallest
    let (m4, remaining4) :=
      if remaining3 > 0 then
        let currentSmallest := m3 smallest.id
        let additionalQty :=
          min (jsCeil (remaining3 / smallest.value)) (smallestMaxQty - currentSmallest)
        if additionalQty > 0 then
          (setA m3 smallest.id (currentSmallest + additionalQty),
            remaining3 - additionalQty * smallest.value)
        else (m3, remaining3)
      else (m3, remaining3)
    -- STEP 4: smart upgrade swap
    let (m5, _) :=
      if remaining4 > 0 then upgradeLoop numPlayers remaining4 sortedChips sortedChips m4
      else (m4, remaining4)
    m5

/-- Build the distribution lines from an allocation map, keeping only
strictly positive quantities (ascending order of the sorted chips). -/
def buildDistribution (sortedChips : List Chip) (m : ℕ → ℚ) : List Line :=
  sortedChips.filterMap (fun c => if m c.id > 0 then some (mkLine c (m c.id)) else none)

/-- The single-denomination branch. -/
def oneChipDist (buyIn numPlayers : ℚ) (chip : Chip) : List Line :=
  let quantity := jsRound (buyIn / chip.value)
  let maxFromInventory := jsFloor (chip.quantity / numPlayers)
  [mkLine chip (min quantity maxFromInventory)]

/-- The two-denomination branch. -/
def twoChipDist (buyIn numPlayers : ℚ) (small large : Chip) : List Line :=
  let smallTarget := min 15 (jsFloor (buyIn * (1/2) / small.value))
  let smallQty := min smallTarget (jsFloor (small.quantity / numPlayers))
  let smallValue := smallQty * small.value
  let largeQty := min (jsRound ((buyIn - smallValue) / large.value))
    (jsFloor (large.quantity / numPlayers))
  let largeValue := largeQty * large.value
  let remainder := buyIn - smallValue - largeValue
  let additionalSmall := jsRound (remainder / small.value)
  let finalSmallQty := smallQty + additionalSmall
  (if finalSmallQty > 0 then [mkLine small finalSmallQty] else [])
    ++ (if largeQty > 0 then [mkLine large largeQty] else [])

/-- Totals-and-warnings epilogue shared by all allocation branches. -/
def epilogue (buyIn smallBlind bigBlind numPlayers : ℚ) (chips : List Chip)
    (warnings0 : List Warning) (distribution : List Line) : DistributionResult :=
  let totalValue := distribution.foldl (fun sum c => sum + c.subtotal) 0
  let totalChips := distribution.foldl (fun sum c => sum + c.quantity) 0
  let isValid : Bool := |totalValue - buyIn| < 1/100
  let warnings1 := warnings0 ++
    (if isValid then []
      else if buyIn - totalValue > 0 then [Warning.short (buyIn - totalValue)]
      else [Warning.over (-(buyIn - totalValue))])
  let warnings2 := warnings1 ++
    (if totalChips < 20 then [Warning.fewChips totalChips] else [])
  let warnings3 := warnings2 ++
    distribution.filterMap (fun line =>
      match chips.find? (fun c => c.color = line.color) with
      | some originalChip =>
        if line.quantity * numPlayers > originalChip.quantity
          then some (Warning.stock line.name (line.quantity * numPlayers)
            originalChip.quantity)
          else none
      | none => none)
  let warnings4 := warnings3 ++
    (match (sortChips chips).head? with
      | some smallestAvailable =>
        if smallestAvailable.value > smallBlind
          then [Warning.smallestAboveBlind smallestAvailable.value smallBlind]
          else []
      | none => [])
  { distribution := distribution, totalValue := totalValue,
    totalChips := some totalChips, isValid := isValid, warnings := warnings4,
    recommendation := some { minStack := bigBlind * 100, idealChipCount := "20-30" } }

/-- `calculateDistribution({buyIn, smallBlind, bigBlind, numPlayers, chips})`
— the main source file's allocator (greedy fill for ≥ 3 denominations). -/
def calculateDistribution (buyIn smallBlind bigBlind numPlayers : ℚ)
    (chips : List Chip) : DistributionResult :=
  if chips.isEmpty then
    { distribution := [], totalValue := 0, totalChips := none, isValid := false,
      warnings := [.noChipsDefined], recommendation := none }
  else if buyIn ≤ 0 then
    { distribution := [], totalValue := 0, totalChips := none, isValid := false,
      warnings := [.buyInNotPositive], recommendation := none }
  else
    let minRecommendedStack := bigBlind * 100
    let warnings0 :=
      if buyIn < minRecommendedStack then [Warning.lowBuyIn buyIn minRecommendedStack]
      else []
    let sortedChips := sortChips chips
    let distribution :=
      match sortedChips with
      | [] => []
      | [chip] => oneChipDist buyIn numPlayers chip
      | [small, large] => twoChipDist buyIn numPlayers small large
      | _ => buildDistribution sortedChips (greedyAlloc buyIn numPlayers sortedChips)
    epilogue buyIn smallBlind bigBlind numPlayers chips warnings0 distribution

/-! ## Claims about `calculateDistribution` -/

theorem foldl_add_map {β : Type _} (f : β → ℚ) (l : List β) (a : ℚ) :
    l.foldl (fun s x => s + f x) a = a + (l.map f).sum := by
  induction l generalizing a with
  | nil => simp
  | cons x l ih => simp [ih]; ring

theorem epilogue_distribution (b sb bb np : ℚ) (chips : List Chip)
    (w0 : List Warning) (dist : List Line) :
    (epilogue b sb bb np chips w0 dist).distribution = dist := rfl

theorem epilogue_totalValue (b sb bb np : ℚ) (chips : List Chip)
    (w0 : List Warning) (dist : List Line) :
    (epilogue b sb bb np chips w0 dist).totalValue = (dist.map Line.subtotal).sum := by
  show dist.foldl (fun sum c => sum + c.subtotal) 0 = _
  rw [foldl_add_map]
  ring

theorem epilogue_totalChips (b sb bb np : ℚ) (chips : List Chip)
    (w0 : List Warning) (dist : List Line) :
    (epilogue b sb bb np chips w0 dist).totalChips
      = some ((dist.map Line.quantity).sum) := by
  show some (dist.foldl (fun sum c => sum + c.quantity) 0) = _
  rw [foldl_add_map]
  norm_num

theorem epilogue_isValid (b sb bb np : ℚ) (chips : List Chip)
    (w0 : List Warning) (dist : List Line) :
    ((epilogue b sb bb np chips w0 dist).isValid = true ↔
      |(epilogue b sb bb np chips w0 dist).totalValue - b| < 1/100) := by
  show (decide _ = true) ↔ _
  rw [decide_eq_true_eq, epilogue_totalValue]
  show |dist.foldl (fun sum c => sum + c.subtotal) 0 - b| < 1/100 ↔ _
  rw [foldl_add_map]
  norm_num

theorem epilogue_mem_warnings0 (b sb bb np : ℚ) (chips : List Chip)
    (w0 : List Warning) (dist : List Line) (w : Warning) (hw : w ∈ w0) :
    w ∈ (epilogue b sb bb np chips w0 dist).warnings := by
  show w ∈ (((w0 ++ _) ++ _) ++ _) ++ _
  exact List.mem_append_left _ (List.mem_append_left _
    (List.mem_append_left _ (List.mem_append_left _ hw)))

/-- **C5.** An empty chip list returns the empty distribution with
`totalValue` 0, `isValid` false and exactly the warning `"No chips defined"`;
a non-positive buy-in (with non-empty chips) returns the empty distribution,
`isValid` false and exactly the warning `"Buy-in must be greater than 0"`. -/
theorem calcDist_early_exits (buyIn sb bb np : ℚ) (chips : List Chip) :
    (chips = [] → calculateDistribution buyIn sb bb np chips =
      { distribution := [], totalValue := 0, totalChips := none, isValid := false,
        warnings := [.noChipsDefined], recommendation := none }) ∧
    (chips ≠ [] → buyIn ≤ 0 → calculateDistribution buyIn sb bb np chips =
      { distribution := [], totalValue := 0, totalChips := none, isValid := false,
        warnings := [.buyInNotPositive], recommendation := none }) := by
  constructor
  · intro h
    subst h
    rfl
  · intro hne hb
    rw [calculateDistribution,
      if_neg (by simpa [List.isEmpty_iff] using hne), if_pos hb]

/-- Witness for C5 at concrete inputs (spec scenarios B and C). -/
theorem calcDist_early_exits_witness :
    calculateDistribution 50 1 2 4 ([] : List Chip) =
      { distribution := [], totalValue := 0, totalChips := none, isValid := false,
        warnings := [.noChipsDefined], recommendation := none } ∧
    calculateDistribution 0 1 2 4 [⟨0, "w", "W", 100, 1⟩] =
      { distribution := [], totalValue := 0, totalChips := none, isValid := false,
        warnings := [.buyInNotPositive], recommendation := none } :=
  ⟨(calcDist_early_exits 50 1 2 4 []).1 rfl,
    (calcDist_early_exits 0 1 2 4 [⟨0, "w", "W", 100, 1⟩]).2 (by simp) (by norm_num)⟩

/-- **C10.** With non-empty chips and positive buy-in, whenever
`buyIn < bigBlind * 100` the warnings list contains the
"less than 100 big blinds" message (a warning kind beyond the four listed
in the spec's §4.2 warning enumeration). -/
theorem calcDist_lowBuyIn_warning (buyIn sb bb np : ℚ) (chips : List Chip)
    (hne : chips ≠ []) (hb : 0 < buyIn) (hlow : buyIn < bb * 100) :
    Warning.lowBuyIn buyIn (bb * 100) ∈
      (calculateDistribution buyIn sb bb np chips).warnings := by
  rw [calculateDistribution,
    if_neg (by simpa [List.isEmpty_iff] using hne), if_neg (not_le.2 hb)]
  exact epilogue_mem_warnings0 _ _ _ _ _ _ _ _
    (by rw [if_pos hlow]; exact List.mem_singleton_self _)

/-- Witness for C10 at a concrete input. -/
theorem calcDist_lowBuyIn_warning_witness :
    Warning.lowBuyIn 100 (2 * 100) ∈
      (calculateDistribution 100 1 2 4 [⟨0, "w", "White", 1000, 1⟩]).warnings :=
  calcDist_lowBuyIn_warning 100 1 2 4 [⟨0, "w", "White", 1000, 1⟩]
    (by simp) (by norm_num) (by norm_num)

theorem epilogue_invalid_warnings (b sb bb np : ℚ) (chips : List Chip)
    (w0 : List Warning) (dist : List Line)
    (h : (epilogue b sb bb np chips w0 dist).isValid = false) :
    (epilogue b sb bb np chips w0 dist).warnings ≠ [] := by
  intro hcon
  simp only [epilogue] at h hcon
  rw [h] at hcon
  simp only [List.append_eq_nil] at hcon
  obtain ⟨⟨⟨⟨-, hX⟩, -⟩, -⟩, -⟩ := hcon
  simp only [Bool.false_eq_true, if_false] at hX
  split_ifs at hX

/-- **C6.** The allocator never signals failure by an exception: it is a
total function (its embedding needs no `Option`/`Except`), and every
degenerate input is reported through the result itself — in particular,
whenever `isValid` is false the warnings list is non-empty, so empty
inventories, non-positive buy-ins and infeasible matches all surface as
structured warnings. -/
theorem calcDist_structured_errors (b sb bb np : ℚ) (chips : List Chip) :
    (calculateDistribution b sb bb np chips).isValid = false →
    (calculateDistribution b sb bb np chips).warnings ≠ [] := by
  intro h
  by_cases hne : chips = []
  · subst hne
    simp [calculateDistribution]
  · by_cases hb : b ≤ 0
    · rw [calculateDistribution,
        if_neg (by simpa [List.isEmpty_iff] using hne), if_pos hb]
      simp
    · rw [calculateDistribution,
        if_neg (by simpa [List.isEmpty_iff] using hne), if_neg hb] at h ⊢
      exact epilogue_invalid_warnings _ _ _ _ _ _ _ h

/-- Witness for C6 at a concrete invalid input (empty inventory). -/
theorem calcDist_structured_errors_witness :
    (calculateDistribution 50 1 2 4 ([] : List Chip)).warnings ≠ [] :=
  calcDist_structured_errors 50 1 2 4 [] rfl

/-- **C4.** For every single-denomination input with positive buy-in, the one
allocation line has `quantity = min(round(buyIn/value), floor(inventory/numPlayers))`
and `subtotal = quantity * value`; at `chips = [{value 1, quantity 1000}]`,
`buyIn = 100`, `numPlayers = 4` this gives quantity 100, a valid result with
100 total chips and no low-chip-count warning. -/
theorem oneDenom_quantity :
    (∀ (b sb bb np : ℚ) (c : Chip), 0 < b →
      (calculateDistribution b sb bb np [c]).distribution =
        [mkLine c (min (jsRound (b / c.value)) (jsFloor (c.quantity / np)))]) ∧
    ((calculateDistribution 100 1 2 4 [⟨0, "white", "White", 1000, 1⟩]).isValid
        = true ∧
      (calculateDistribution 100 1 2 4 [⟨0, "white", "White", 1000, 1⟩]).totalChips
        = some 100 ∧
      (calculateDistribution 100 1 2 4 [⟨0, "white", "White", 1000, 1⟩]).distribution
        = [mkLine ⟨0, "white", "White", 1000, 1⟩ 100] ∧
      ∀ q, Warning.fewChips q ∉
        (calculateDistribution 100 1 2 4 [⟨0, "white", "White", 1000, 1⟩]).warnings) := by
  have hgen : ∀ (b sb bb np : ℚ) (c : Chip), 0 < b →
      (calculateDistribution b sb bb np [c]).distribution =
        [mkLine c (min (jsRound (b / c.value)) (jsFloor (c.quantity / np)))] := by
    intro b sb bb np c hb
    rw [calculateDistribution, if_neg (by simp), if_neg (not_le.2 hb),
      epilogue_distribution]
    rfl
  refine ⟨hgen, ?_⟩
  have hr : calculateDistribution 100 1 2 4 [⟨0, "white", "White", 1000, 1⟩] =
      { distribution := [mkLine ⟨0, "white", "White", 1000, 1⟩ 100],
        totalValue := 100, totalChips := some 100, isValid := true,
        warnings := [Warning.lowBuyIn 100 200],
        recommendation := some { minStack := 200, idealChipCount := "20-30" } } := by
    rw [calculateDistribution, if_neg (by simp), if_neg (by norm_num)]
    norm_num [epilogue, oneChipDist, sortChips, insSort, insTo, chipLE, mkLine,
      jsRound, jsRoundZ, jsFloor, min_def, List.find?]
  rw [hr]
  refine ⟨rfl, rfl, rfl, ?_⟩
  intro q
  simp

theorem jsRound_nonneg (q : ℚ) (h : 0 ≤ q) : 0 ≤ jsRound q := by
  have : (0 : ℤ) ≤ jsRoundZ q := by
    rw [jsRoundZ, Int.le_floor]
    push_cast
    linarith
  rw [jsRound]
  exact_mod_cast this

theorem jsFloor_nonneg (q : ℚ) (h : 0 ≤ q) : 0 ≤ jsFloor q := by
  have : (0 : ℤ) ≤ ⌊q⌋ := by
    rw [Int.le_floor]
    exact_mod_cast h
  rw [jsFloor]
  exact_mod_cast this

theorem mem_buildDistribution {s : List Chip} {m : ℕ → ℚ} {l : Line}
    (h : l ∈ buildDistribution s m) :
    ∃ c ∈ s, 0 < m c.id ∧ l = mkLine c (m c.id) := by
  rw [buildDistribution, List.mem_filterMap] at h
  obtain ⟨c, hc, hf⟩ := h
  by_cases hpos : m c.id > 0
  · rw [if_pos hpos, Option.some_inj] at hf
    exact ⟨c, hc, hpos, hf.symm⟩
  · rw [if_neg hpos] at hf
    exact absurd hf (Option.noConfusion)

theorem mem_twoChipDist {b np : ℚ} {small large : Chip} {l : Line}
    (h : l ∈ twoChipDist b np small large) :
    ∃ c q, 0 < q ∧ l = mkLine c q := by
  rw [twoChipDist] at h
  rcases List.mem_append.1 h with h | h <;>
    [skip; skip] <;>
    · split_ifs at h with hq
      · rw [List.mem_singleton] at h
        exact ⟨_, _, hq, h⟩
      · exact absurd h (List.not_mem_nil l)

/-- **C3.** With non-empty chips and positive buy-in (and inputs conforming
to the data model: non-negative values and inventory counts, at least one
player), the result satisfies: `totalValue` is the sum of
`quantity * value` over the distribution lines, `totalChips` is the sum of
the quantities, every quantity is non-negative, and `isValid` holds exactly
when `|totalValue - buyIn| < 0.01`. -/
theorem calcDist_postconditions (b sb bb np : ℚ) (chips : List Chip)
    (hne : chips ≠ []) (hb : 0 < b) (hnp : 1 ≤ np)
    (hwf : ∀ c ∈ chips, 0 ≤ c.value ∧ 0 ≤ c.quantity) :
    (calculateDistribution b sb bb np chips).totalValue
      = ((calculateDistribution b sb bb np chips).distribution.map
          (fun l => l.quantity * l.value)).sum ∧
    (calculateDistribution b sb bb np chips).totalChips
      = some (((calculateDistribution b sb bb np chips).distribution.map
          Line.quantity).sum) ∧
    (∀ l ∈ (calculateDistribution b sb bb np chips).distribution, 0 ≤ l.quantity) ∧
    ((calculateDistribution b sb bb np chips).isValid = true ↔
      |(calculateDistribution b sb bb np chips).totalValue - b| < 1/100) := by
  have hmem : ∀ x ∈ sortChips chips, x ∈ chips :=
    fun x hx => (insSort_perm chipLE chips).mem_iff.1 hx
  rw [calculateDistribution, if_neg (by simpa [List.isEmpty_iff] using hne),
    if_neg (not_le.2 hb)]
  have hlines : ∀ l ∈ (match sortChips chips with
      | [] => ([] : List Line)
      | [chip] => oneChipDist b np chip
      | [small, large] => twoChipDist b np small large
      | _ => buildDistribution (sortChips chips)
          (greedyAlloc b np (sortChips chips))),
      0 ≤ l.quantity ∧ l.subtotal = l.quantity * l.value := by
    rcases hs : sortChips chips with - | ⟨c, - | ⟨c2, rest⟩⟩
    · intro l hl
      exact absurd hl (List.not_mem_nil l)
    · intro l hl
      have hl2 : l ∈ oneChipDist b np c := hl
      rw [oneChipDist] at hl2
      rw [List.mem_singleton.1 hl2]
      have hc : c ∈ chips := hmem c (by rw [hs]; exact List.mem_cons_self c [])
      refine ⟨le_min (jsRound_nonneg _ (div_nonneg hb.le (hwf c hc).1)) ?_, rfl⟩
      exact jsFloor_nonneg _ (div_nonneg (hwf c hc).2 (le_trans zero_le_one hnp))
    · cases rest with
      | nil =>
        intro l hl
        obtain ⟨cc, q, hq, hlq⟩ := mem_twoChipDist hl
        exact ⟨hlq ▸ hq.le, hlq ▸ rfl⟩
      | cons c3 rest2 =>
        intro l hl
        obtain ⟨cc, -, hq, hlq⟩ := mem_buildDistribution hl
        exact ⟨hlq ▸ hq.le, hlq ▸ rfl⟩
  refine ⟨?_, ?_, ?_, ?_⟩
  · rw [epilogue_totalValue, epilogue_distribution]
    exact congrArg List.sum (List.map_congr_left (fun l hl => (hlines l hl).2))
  · rw [epilogue_totalChips, epilogue_distribution]
  · rw [epilogue_distribution]
    exact fun l hl => (hlines l hl).1
  · exact epilogue_isValid b sb bb np chips _ _

/-- Witness for C3 at a concrete three-denomination input. -/
theorem calcDist_postconditions_witness :
    (calculateDistribution 100 1 2 2
        [⟨0, "w", "W", 200, 1⟩, ⟨1, "r", "R", 150, 5⟩, ⟨2, "b", "B", 100, 25⟩]).totalValue
      = ((calculateDistribution 100 1 2 2
        [⟨0, "w", "W", 200, 1⟩, ⟨1, "r", "R", 150, 5⟩, ⟨2, "b", "B", 100, 25⟩]).distribution.map
          (fun l => l.quantity * l.value)).sum ∧
    (calculateDistribution 100 1 2 2
        [⟨0, "w", "W", 200, 1⟩, ⟨1, "r", "R", 150, 5⟩, ⟨2, "b", "B", 100, 25⟩]).totalChips
      = some (((calculateDistribution 100 1 2 2
        [⟨0, "w", "W", 200, 1⟩, ⟨1, "r", "R", 150, 5⟩, ⟨2, "b", "B", 100, 25⟩]).distribution.map
          Line.quantity).sum) ∧
    (∀ l ∈ (calculateDistribution 100 1 2 2
        [⟨0, "w", "W", 200, 1⟩, ⟨1, "r", "R", 150, 5⟩, ⟨2, "b", "B", 100, 25⟩]).distribution,
      0 ≤ l.quantity) ∧
    ((calculateDistribution 100 1 2 2
        [⟨0, "w", "W", 200, 1⟩, ⟨1, "r", "R", 150, 5⟩, ⟨2, "b", "B", 100, 25⟩]).isValid = true ↔
      |(calculateDistribution 100 1 2 2
        [⟨0, "w", "W", 200, 1⟩, ⟨1, "r", "R", 150, 5⟩, ⟨2, "b", "B", 100, 25⟩]).totalValue
        - 100| < 1/100) :=
  calcDist_postconditions 100 1 2 2
    [⟨0, "w", "W", 200, 1⟩, ⟨1, "r", "R", 150, 5⟩, ⟨2, "b", "B", 100, 25⟩]
    (by simp) (by norm_num) (by norm_num)
    (by intro c hc; fin_cases hc <;> norm_num)

/-- **C2 (counterexample).** At `buyIn = 50`, one player, small chip of value
1 with inventory 10 (per-player cap 10) and large chip of value 100, the
returned small-chip quantity is 50, far above the cap `floor(10/1) = 10`:
the fold-in of `round(remainder/small.value)` is not subject to the cap. -/
theorem twoDenom_cap_claim_fails :
    ((calculateDistribution 50 1 2 1
        [⟨0, "w", "W", 10, 1⟩, ⟨1, "b", "B", 100, 100⟩]).distribution.map
      Line.quantity) = [50] ∧
    jsFloor ((10 : ℚ) / 1) = 10 ∧ ¬ ((50 : ℚ) ≤ 10) := by
  have hr : calculateDistribution 50 1 2 1
      [⟨0, "w", "W", 10, 1⟩, ⟨1, "b", "B", 100, 100⟩] =
      { distribution := [mkLine ⟨0, "w", "W", 10, 1⟩ 50],
        totalValue := 50, totalChips := some 50, isValid := true,
        warnings := [Warning.lowBuyIn 50 200, Warning.stock "W" 50 10],
        recommendation := some { minStack := 200, idealChipCount := "20-30" } } := by
    rw [calculateDistribution, if_neg (by simp), if_neg (by norm_num)]
    norm_num [epilogue, twoChipDist, sortChips, insSort, insTo, chipLE, mkLine,
      jsRound, jsRoundZ, jsFloor, min_def, List.find?, List.filterMap]
  rw [hr]
  norm_num [mkLine, jsFloor]

/-- **C2 (amended).** For every two-denomination input with positive buy-in,
the final small quantity is `smallQty + round(remainder/small.value)` where
only the initial `smallQty` is capped at `floor(small.quantity/numPlayers)`;
the folded-in addition is applied without re-checking the cap (the residual
error surfaces only through `isValid`), and lines are emitted only for
strictly positive quantities. -/
theorem twoDenom_uncapped_fold (b sb bb np : ℚ) (chips : List Chip)
    (small large : Chip) (hb : 0 < b) (hs : sortChips chips = [small, large]) :
    (calculateDistribution b sb bb np chips).distribution =
      (let cap := jsFloor (small.quantity / np)
       let smallQty := min (min 15 (jsFloor (b * (1/2) / small.value))) cap
       let largeQty := min (jsRound ((b - smallQty * small.value) / large.value))
         (jsFloor (large.quantity / np))
       let finalSmallQty := smallQty + jsRound
         ((b - smallQty * small.value - largeQty * large.value) / small.value)
       (if 0 < finalSmallQty then [mkLine small finalSmallQty] else [])
         ++ (if 0 < largeQty then [mkLine large largeQty] else [])) := by
  have hne : chips ≠ [] := by
    intro h
    rw [h] at hs
    exact absurd hs (by simp [sortChips, insSort])
  rw [calculateDistribution, if_neg (by simpa [List.isEmpty_iff] using hne),
    if_neg (not_le.2 hb), epilogue_distribution, hs]
  rfl

/-- Witness for the amended C2 at the counterexample input. -/
theorem twoDenom_uncapped_fold_witness :
    (calculateDistribution 50 1 2 1
        [⟨0, "w", "W", 10, 1⟩, ⟨1, "b", "B", 100, 100⟩]).distribution =
      (let cap := jsFloor ((10 : ℚ) / 1)
       let smallQty := min (min 15 (jsFloor ((50 : ℚ) * (1/2) / 1))) cap
       let largeQty := min (jsRound (((50 : ℚ) - smallQty * 1) / 100))
         (jsFloor ((100 : ℚ) / 1))
       let finalSmallQty := smallQty + jsRound
         (((50 : ℚ) - smallQty * 1 - largeQty * 100) / 1)
       (if 0 < finalSmallQty then [mkLine ⟨0, "w", "W", 10, 1⟩ finalSmallQty] else [])
         ++ (if 0 < largeQty then [mkLine ⟨1, "b", "B", 100, 100⟩ largeQty] else [])) :=
  twoDenom_uncapped_fold 50 1 2 1 [⟨0, "w", "W", 10, 1⟩, ⟨1, "b", "B", 100, 100⟩]
    ⟨0, "w", "W", 10, 1⟩ ⟨1, "b", "B", 100, 100⟩ (by norm_num)
    (by norm_num [sortChips, insSort, insTo, chipLE])

/-- Witness for the general part of C4 at a concrete input. -/
theorem oneDenom_quantity_witness :
    (calculateDistribution 100 1 2 4 [⟨0, "white", "White", 1000, 1⟩]).distribution =
      [mkLine ⟨0, "white", "White", 1000, 1⟩
        (min (jsRound ((100 : ℚ) / 1)) (jsFloor ((1000 : ℚ) / 4)))] :=
  oneDenom_quantity.1 100 1 2 4 ⟨0, "white", "White", 1000, 1⟩ (by norm_num)

/-! ## The pyramid-heuristic allocator (`calculateDistribution` of the
second, unnamed source variant) -/

/-- STEP 1 pyramid target quantities (decreasing). -/
def baseTargets : List ℚ := [25, 15, 10, 6, 4, 3, 2, 2, 2, 2]

/-- STEP 2: initial allocation `min(target, floor(quantity/numPlayers))` per
chip (ascending), accumulating the running total value.  Called on the
sorted chips zipped with `baseTargets.slice(0, n)`. -/
def pyramidInit (numPlayers : ℚ) : List (Chip × ℚ) → (ℕ → ℚ) → ℚ → ((ℕ → ℚ) × ℚ)
  | [], m, totalValue => (m, totalValue)
  | ct :: rest, m, totalValue =>
    let maxQty := jsFloor (ct.1.quantity / numPlayers)
    let qty := min ct.2 maxQty
    pyramidInit numPlayers rest (setA m ct.1.id qty) (totalValue + qty * ct.1.value)

/-- The inner `while` of the first reduction pass: decrement while the stack
is over the buy-in and removing one chip keeps it at or above the buy-in.
The loop decrements `qty` by one per iteration and requires `qty > 0`, so
`⌈qty⌉` iterations of fuel always suffice. -/
def shrinkA (v buyIn : ℚ) : ℕ → ℚ → ℚ → ℚ × ℚ
  | 0, qty, totalValue => (qty, totalValue)
  | fuel + 1, qty, totalValue =>
    if qty > 0 ∧ totalValue > buyIn then
      if totalValue - v ≥ buyIn then shrinkA v buyIn fuel (qty - 1) (totalValue - v)
      else (qty, totalValue)
    else (qty, totalValue)

/-- The inner `while` of the second (unconditional) reduction pass:
decrement while still over the buy-in. -/
def shrinkB (v buyIn : ℚ) : ℕ → ℚ → ℚ → ℚ × ℚ
  | 0, qty, totalValue => (qty, totalValue)
  | fuel + 1, qty, totalValue =>
    if qty > 0 ∧ totalValue > buyIn then shrinkB v buyIn fuel (qty - 1) (totalValue - v)
    else (qty, totalValue)

/-- First reduction pass, `for i = n-1 downto 0` (the recursion processes the
tail — the larger denominations — first). -/
def pyramidPassA (buyIn : ℚ) : List Chip → (ℕ → ℚ) → ℚ → ((ℕ → ℚ) × ℚ)
  | [], m, totalValue => (m, totalValue)
  | c :: rest, m, totalValue =>
    let r := pyramidPassA buyIn rest m totalValue
    let qty := r.1 c.id
    let s := shrinkA c.value buyIn (Int.toNat ⌈qty⌉) qty r.2
    (setA r.1 c.id s.1, s.2)

/-- Second reduction pass, `for i = n-1 downto 1` (applied to the tail of the
sorted chips, so the smallest denomination is excluded). -/
def pyramidPassB (buyIn : ℚ) : List Chip → (ℕ → ℚ) → ℚ → ((ℕ → ℚ) × ℚ)
  | [], m, totalValue => (m, totalValue)
  | c :: rest, m, totalValue =>
    let r := pyramidPassB buyIn rest m totalValue
    let qty := r.1 c.id
    let s := shrinkB c.value buyIn (Int.toNat ⌈qty⌉) qty r.2
    (setA r.1 c.id s.1, s.2)

/-- STEP 3: if over the buy-in, run the conditional pass over all chips from
the largest down, then the unconditional pass excluding the smallest. -/
def pyramidReduce (buyIn : ℚ) (sortedChips : List Chip) (m : ℕ → ℚ) (totalValue : ℚ) :
    (ℕ → ℚ) × ℚ :=
  if totalValue > buyIn then
    let r := pyramidPassA buyIn sortedChips m totalValue
    match sortedChips with
    | [] => r
    | _ :: others => pyramidPassB buyIn others r.1 r.2
  else (m, totalValue)

/-- STEPs 1–3 of the pyramid allocator: initial pyramid assignment followed
by the over-buy-in reduction. -/
def pyramidStage3 (buyIn numPlayers : ℚ) (sortedChips : List Chip) : (ℕ → ℚ) × ℚ :=
  let r := pyramidInit numPlayers
    (sortedChips.zip (baseTargets.take sortedChips.length)) (fun _ => 0) 0
  pyramidReduce buyIn sortedChips r.1 r.2

/-- STEP 4 (and the identical STEP 6 re-run): fill a remaining gap with the
smallest denomination; STEP 4 updates unconditionally, STEP 6 only when the
additional quantity is positive. -/
def pyramidTopUp (buyIn numPlayers : ℚ) (smallest : Chip) (positiveOnly : Bool)
    (m : ℕ → ℚ) (totalValue : ℚ) : (ℕ → ℚ) × ℚ :=
  if totalValue < buyIn then
    let gap := buyIn - totalValue
    let currentSmallest := m smallest.id
    let additionalQty := min (jsCeil (gap / smallest.value))
      (jsFloor (smallest.quantity / numPlayers) - currentSmallest)
    if positiveOnly ∧ ¬ additionalQty > 0 then (m, totalValue)
    else (setA m smallest.id (currentSmallest + additionalQty),
      totalValue + additionalQty * smallest.value)
  else (m, totalValue)

/-- STEP 5: give every non-smallest colour left at zero at least 2 chips by
swapping value out of the smallest denomination, if the smallest retains a
10-chip cushion. -/
def pyramidVariety (numPlayers : ℚ) (smallest : Chip) :
    List Chip → (ℕ → ℚ) → (ℕ → ℚ)
  | [], m => m
  | c :: rest, m =>
    let currentQty := m c.id
    if currentQty = 0 then
      let maxQty := jsFloor (c.quantity / numPlayers)
      if maxQty ≥ 2 then
        let valueToAdd := 2 * c.value
        let smallestQty := m smallest.id
        let toRemove := jsCeil (valueToAdd / smallest.value)
        if smallestQty ≥ toRemove + 10 then
          pyramidVariety numPlayers smallest rest
            (setA (setA m c.id 2) smallest.id (smallestQty - toRemove))
        else pyramidVariety numPlayers smallest rest m
      else pyramidVariety numPlayers smallest rest m
    else pyramidVariety numPlayers smallest rest m

/-- The full ≥3-denomination pyramid allocation (STEPs 1–6). -/
def pyramidAlloc (buyIn numPlayers : ℚ) (sortedChips : List Chip) : ℕ → ℚ :=
  match sortedChips with
  | [] => fun _ => 0
  | smallest :: others =>
    let r3 := pyramidStage3 buyIn numPlayers sortedChips
    let r4 := pyramidTopUp buyIn numPlayers smallest false r3.1 r3.2
    let m5 := pyramidVariety numPlayers smallest others r4.1
    let currentTotal := sortedChips.foldl (fun sum c => sum + m5 c.id * c.value) 0
    (pyramidTopUp buyIn numPlayers smallest true m5 currentTotal).1

/-- `calculateDistribution` of the pyramid variant: identical shell to the
main file, with the SMART PYRAMID branch for three or more denominations. -/
def calculateDistributionPyramid (buyIn smallBlind bigBlind numPlayers : ℚ)
    (chips : List Chip) : DistributionResult :=
  if chips.isEmpty then
    { distribution := [], totalValue := 0, totalChips := none, isValid := false,
      warnings := [.noChipsDefined], recommendation := none }
  else if buyIn ≤ 0 then
    { distribution := [], totalValue := 0, totalChips := none, isValid := false,
      warnings := [.buyInNotPositive], recommendation := none }
  else
    let minRecommendedStack := bigBlind * 100
    let warnings0 :=
      if buyIn < minRecommendedStack then [Warning.lowBuyIn buyIn minRecommendedStack]
      else []
    let sortedChips := sortChips chips
    let distribution :=
      match sortedChips with
      | [] => []
      | [chip] => oneChipDist buyIn numPlayers chip
      | [small, large] => twoChipDist buyIn numPlayers small large
      | _ => buildDistribution sortedChips (pyramidAlloc buyIn numPlayers sortedChips)
    epilogue buyIn smallBlind bigBlind numPlayers chips warnings0 distribution

/-! ## Claim-side construction for the pyramid stage (C1)

An independent rendering of the claim's wording: initial quantities
`min(target_i, floor(inventory_i/numPlayers))` over the fixed decreasing
target sequence, then — if the total exceeds the buy-in — a one-chip-at-a-time
decrement pass from the largest denomination down, allowed only while the
running total stays at or above the buy-in, followed by a second,
unconditional decrement pass (running while still over the buy-in) that
excludes the smallest denomination.  Chip counts are natural numbers here. -/

/-- The claim's fixed target sequence, as chip counts. -/
def specBaseTargets : List ℕ := [25, 15, 10, 6, 4, 3, 2, 2, 2, 2]

/-- One denomination of the claim's first pass: remove chips one at a time,
only while the total stays ≥ buy-in after the removal. -/
def specReduce1 (v buyIn : ℚ) : ℕ → ℚ → ℕ × ℚ
  | 0, totalValue => (0, totalValue)
  | q + 1, totalValue =>
    if buyIn ≤ totalValue - v then specReduce1 v buyIn q (totalValue - v)
    else (q + 1, totalValue)

/-- One denomination of the claim's second pass: remove chips one at a time
while the total still exceeds the buy-in. -/
def specReduce2 (v buyIn : ℚ) : ℕ → ℚ → ℕ × ℚ
  | 0, totalValue => (0, totalValue)
  | q + 1, totalValue =>
    if buyIn < totalValue then specReduce2 v buyIn q (totalValue - v)
    else (q + 1, totalValue)

/-- The claim's first pass over (value, count) pairs listed ascending:
the recursion reduces the larger denominations (the tail) first. -/
def specPass1 (buyIn : ℚ) : List (ℚ × ℕ) → ℚ → (List (ℚ × ℕ) × ℚ)
  | [], totalValue => ([], totalValue)
  | p :: rest, totalValue =>
    let r := specPass1 buyIn rest totalValue
    let s := specReduce1 p.1 buyIn p.2 r.2
    ((p.1, s.1) :: r.1, s.2)

/-- The claim's second pass, same shape with the unconditional decrement. -/
def specPass2 (buyIn : ℚ) : List (ℚ × ℕ) → ℚ → (List (ℚ × ℕ) × ℚ)
  | [], totalValue => ([], totalValue)
  | p :: rest, totalValue =>
    let r := specPass2 buyIn rest totalValue
    let s := specReduce2 p.1 buyIn p.2 r.2
    ((p.1, s.1) :: r.1, s.2)

/-- The claim's adjustment: if the total exceeds the buy-in, run pass 1 over
all denominations from the largest down, then pass 2 excluding the smallest
denomination. -/
def specReduceStage (buyIn : ℚ) (pairs : List (ℚ × ℕ)) (totalValue0 : ℚ) :
    List (ℚ × ℕ) × ℚ :=
  if buyIn < totalValue0 then
    let r1 := specPass1 buyIn pairs totalValue0
    match r1.1 with
    | [] => r1
    | p :: rest =>
      let r2 := specPass2 buyIn rest r1.2
      (p :: r2.1, r2.2)
  else (pairs, totalValue0)

/-- The claim-described state after the adjustment: initial capped pyramid
quantities `min(target_i, floor(inventory_i/numPlayers))`, then — if the
resulting total exceeds the buy-in — the two decrement passes. -/
def specPyramidStage (buyIn numPlayers : ℚ) (sortedChips : List Chip) :
    List (ℚ × ℕ) × ℚ :=
  let caps := sortedChips.map (fun c => (⌊c.quantity / numPlayers⌋).toNat)
  let qtys := List.zipWith min (specBaseTargets.take sortedChips.length) caps
  let pairs := (sortedChips.map Chip.value).zip qtys
  let totalValue0 := (pairs.map (fun p => (p.2 : ℚ) * p.1)).sum
  specReduceStage buyIn pairs totalValue0

theorem shrinkA_eq_specReduce1 (v b : ℚ) (hv : 0 < v) :
    ∀ (q : ℕ) (tv : ℚ) (fuel : ℕ), q ≤ fuel →
      shrinkA v b fuel (q : ℚ) tv =
        (((specReduce1 v b q tv).1 : ℚ), (specReduce1 v b q tv).2) := by
  intro q
  induction q with
  | zero =>
    intro tv fuel _hf
    cases fuel with
    | zero => simp [shrinkA, specReduce1]
    | succ f => simp [shrinkA, specReduce1]
  | succ q ih =>
    intro tv fuel hfuel
    cases fuel with
    | zero => omega
    | succ f =>
      have hq1 : ((q + 1 : ℕ) : ℚ) > 0 := by positivity
      by_cases hc : b ≤ tv - v
      · have htv : tv > b := by linarith
        rw [shrinkA, if_pos ⟨hq1, htv⟩, if_pos (by linarith : tv - v ≥ b)]
        have hcast : ((q + 1 : ℕ) : ℚ) - 1 = (q : ℚ) := by push_cast; ring
        rw [hcast, ih (tv - v) f (by omega)]
        rw [specReduce1, if_pos hc]
      · rw [specReduce1, if_neg hc]
        by_cases hover : tv > b
        · rw [shrinkA, if_pos ⟨hq1, hover⟩, if_neg (by linarith : ¬ tv - v ≥ b)]
        · rw [shrinkA, if_neg (by tauto)]

theorem shrinkB_eq_specReduce2 (v b : ℚ) :
    ∀ (q : ℕ) (tv : ℚ) (fuel : ℕ), q ≤ fuel →
      shrinkB v b fuel (q : ℚ) tv =
        (((specReduce2 v b q tv).1 : ℚ), (specReduce2 v b q tv).2) := by
  intro q
  induction q with
  | zero =>
    intro tv fuel _hf
    cases fuel with
    | zero => simp [shrinkB, specReduce2]
    | succ f => simp [shrinkB, specReduce2]
  | succ q ih =>
    intro tv fuel hfuel
    cases fuel with
    | zero => omega
    | succ f =>
      have hq1 : ((q + 1 : ℕ) : ℚ) > 0 := by positivity
      by_cases hover : tv > b
      · rw [shrinkB, if_pos ⟨hq1, hover⟩]
        have hcast : ((q + 1 : ℕ) : ℚ) - 1 = (q : ℚ) := by push_cast; ring
        rw [hcast, ih (tv - v) f (by omega)]
        rw [specReduce2, if_pos hover]
      · rw [shrinkB, if_neg (by tauto), specReduce2, if_neg hover]

theorem pyramidPassA_eq (b : ℚ) (s : List Chip) (qs : List ℕ) (m : ℕ → ℚ) (tv : ℚ)
    (hnd : (s.map Chip.id).Nodup)
    (hv : ∀ c ∈ s, 0 < c.value)
    (hag : s.map (fun c => m c.id) = qs.map (fun (q : ℕ) => (q : ℚ))) :
    s.map (fun c => (pyramidPassA b s m tv).1 c.id)
        = (specPass1 b ((s.map Chip.value).zip qs) tv).1.map (fun p => (p.2 : ℚ)) ∧
    (pyramidPassA b s m tv).2 = (specPass1 b ((s.map Chip.value).zip qs) tv).2 ∧
    (∀ y, y ∉ s.map Chip.id → (pyramidPassA b s m tv).1 y = m y) := by
  induction s generalizing qs m tv with
  | nil =>
    simp [pyramidPassA, specPass1]
  | cons c rest ih =>
    cases qs with
    | nil => simp at hag
    | cons q qsRest =>
      simp only [List.map_cons, List.cons.injEq] at hag
      obtain ⟨hhead, htail⟩ := hag
      simp only [List.map_cons, List.nodup_cons] at hnd
      obtain ⟨hcid, hndRest⟩ := hnd
      have hvRest : ∀ x ∈ rest, 0 < x.value := fun x hx => hv x (List.mem_cons_of_mem c hx)
      obtain ⟨ihA, ihT, ihF⟩ := ih qsRest m tv hndRest hvRest htail
      have hqty : (pyramidPassA b rest m tv).1 c.id = (q : ℚ) := by
        rw [ihF c.id hcid, hhead]
      have hfuel : (Int.toNat ⌈(pyramidPassA b rest m tv).1 c.id⌉) = q := by
        rw [hqty, Int.ceil_natCast, Int.toNat_natCast]
      have hshrink := shrinkA_eq_specReduce1 c.value b (hv c (List.mem_cons_self c rest))
        q (pyramidPassA b rest m tv).2 q le_rfl
      rw [ihT] at hshrink
      refine ⟨?_, ?_, ?_⟩
      · show (setA (pyramidPassA b rest m tv).1 c.id
            (shrinkA c.value b (Int.toNat ⌈(pyramidPassA b rest m tv).1 c.id⌉)
              ((pyramidPassA b rest m tv).1 c.id) (pyramidPassA b rest m tv).2).1) c.id ::
            rest.map (fun x => (setA (pyramidPassA b rest m tv).1 c.id
              (shrinkA c.value b (Int.toNat ⌈(pyramidPassA b rest m tv).1 c.id⌉)
                ((pyramidPassA b rest m tv).1 c.id) (pyramidPassA b rest m tv).2).1) x.id)
          = _
        rw [hfuel, hqty, ihT, hshrink]
        have htailmap : rest.map (fun x => (setA (pyramidPassA b rest m tv).1 c.id
            ((specReduce1 c.value b q (specPass1 b ((rest.map Chip.value).zip qsRest) tv).2).1 : ℚ)) x.id)
            = rest.map (fun x => (pyramidPassA b rest m tv).1 x.id) := by
          refine List.map_congr_left ?_
          intro x hx
          have hxid : x.id ≠ c.id := by
            intro he
            exact hcid (he ▸ List.mem_map_of_mem Chip.id hx)
          simp [setA, hxid]
        rw [htailmap, ihA]
        show _ = ((c.value, (specReduce1 c.value b q
            (specPass1 b ((rest.map Chip.value).zip qsRest) tv).2).1) ::
          (specPass1 b ((rest.map Chip.value).zip qsRest) tv).1).map (fun p => (p.2 : ℚ))
        rw [List.map_cons]
        simp [setA]
      · show (shrinkA c.value b (Int.toNat ⌈(pyramidPassA b rest m tv).1 c.id⌉)
            ((pyramidPassA b rest m tv).1 c.id) (pyramidPassA b rest m tv).2).2 = _
        rw [hfuel, hqty, ihT, hshrink]
        rfl
      · intro y hy
        simp only [List.map_cons, List.mem_cons] at hy
        push_neg at hy
        show (setA (pyramidPassA b rest m tv).1 c.id _) y = m y
        rw [setA, if_neg hy.1, ihF y hy.2]

theorem pyramidPassB_eq (b : ℚ) (s : List Chip) (qs : List ℕ) (m : ℕ → ℚ) (tv : ℚ)
    (hnd : (s.map Chip.id).Nodup)
    (hag : s.map (fun c => m c.id) = qs.map (fun (q : ℕ) => (q : ℚ))) :
    s.map (fun c => (pyramidPassB b s m tv).1 c.id)
        = (specPass2 b ((s.map Chip.value).zip qs) tv).1.map (fun p => (p.2 : ℚ)) ∧
    (pyramidPassB b s m tv).2 = (specPass2 b ((s.map Chip.value).zip qs) tv).2 ∧
    (∀ y, y ∉ s.map Chip.id → (pyramidPassB b s m tv).1 y = m y) := by
  induction s generalizing qs m tv with
  | nil =>
    simp [pyramidPassB, specPass2]
  | cons c rest ih =>
    cases qs with
    | nil => simp at hag
    | cons q qsRest =>
      simp only [List.map_cons, List.cons.injEq] at hag
      obtain ⟨hhead, htail⟩ := hag
      simp only [List.map_cons, List.nodup_cons] at hnd
      obtain ⟨hcid, hndRest⟩ := hnd
      obtain ⟨ihA, ihT, ihF⟩ := ih qsRest m tv hndRest htail
      have hqty : (pyramidPassB b rest m tv).1 c.id = (q : ℚ) := by
        rw [ihF c.id hcid, hhead]
      have hfuel : (Int.toNat ⌈(pyramidPassB b rest m tv).1 c.id⌉) = q := by
        rw [hqty, Int.ceil_natCast, Int.toNat_natCast]
      have hshrink := shrinkB_eq_specReduce2 c.value b
        q (pyramidPassB b rest m tv).2 q le_rfl
      rw [ihT] at hshrink
      refine ⟨?_, ?_, ?_⟩
      · show (setA (pyramidPassB b rest m tv).1 c.id
            (shrinkB c.value b (Int.toNat ⌈(pyramidPassB b rest m tv).1 c.id⌉)
              ((pyramidPassB b rest m tv).1 c.id) (pyramidPassB b rest m tv).2).1) c.id ::
            rest.map (fun x => (setA (pyramidPassB b rest m tv).1 c.id
              (shrinkB c.value b (Int.toNat ⌈(pyramidPassB b rest m tv).1 c.id⌉)
                ((pyramidPassB b rest m tv).1 c.id) (pyramidPassB b rest m tv).2).1) x.id)
          = _
        rw [hfuel, hqty, ihT, hshrink]
        have htailmap : rest.map (fun x => (setA (pyramidPassB b rest m tv).1 c.id
            ((specReduce2 c.value b q (specPass2 b ((rest.map Chip.value).zip qsRest) tv).2).1 : ℚ)) x.id)
            = rest.map (fun x => (pyramidPassB b rest m tv).1 x.id) := by
          refine List.map_congr_left ?_
          intro x hx
          have hxid : x.id ≠ c.id := by
            intro he
            exact hcid (he ▸ List.mem_map_of_mem Chip.id hx)
          simp [setA, hxid]
        rw [htailmap, ihA]
        show _ = ((c.value, (specReduce2 c.value b q
            (specPass2 b ((rest.map Chip.value).zip qsRest) tv).2).1) ::
          (specPass2 b ((rest.map Chip.value).zip qsRest) tv).1).map (fun p => (p.2 : ℚ))
        rw [List.map_cons]
        simp [setA]
      · show (shrinkB c.value b (Int.toNat ⌈(pyramidPassB b rest m tv).1 c.id⌉)
            ((pyramidPassB b rest m tv).1 c.id) (pyramidPassB b rest m tv).2).2 = _
        rw [hfuel, hqty, ihT, hshrink]
        rfl
      · intro y hy
        simp only [List.map_cons, List.mem_cons] at hy
        push_neg at hy
        show (setA (pyramidPassB b rest m tv).1 c.id _) y = m y
        rw [setA, if_neg hy.1, ihF y hy.2]

theorem jsFloor_toNat_cast (x np : ℚ) (hx : 0 ≤ x) (hnp : 1 ≤ np) :
    jsFloor (x / np) = (((⌊x / np⌋).toNat : ℕ) : ℚ) := by
  have h0 : (0 : ℤ) ≤ ⌊x / np⌋ := by
    rw [Int.le_floor]
    push_cast
    exact div_nonneg hx (by linarith)
  rw [jsFloor]
  norm_cast
  omega

theorem pyramidInit_eq (np : ℚ) (s : List Chip) (ts : List ℕ) (m : ℕ → ℚ) (tv : ℚ)
    (hnd : (s.map Chip.id).Nodup)
    (hq : ∀ c ∈ s, 0 ≤ c.quantity) (hnp : 1 ≤ np)
    (hlen : s.length ≤ ts.length) :
    s.map (fun c =>
        (pyramidInit np (s.zip (ts.map (fun (t : ℕ) => (t : ℚ)))) m tv).1 c.id)
      = (List.zipWith min ts
          (s.map (fun c => (⌊c.quantity / np⌋).toNat))).map (fun (q : ℕ) => (q : ℚ)) ∧
    (pyramidInit np (s.zip (ts.map (fun (t : ℕ) => (t : ℚ)))) m tv).2
      = tv + (((s.map Chip.value).zip (List.zipWith min ts
          (s.map (fun c => (⌊c.quantity / np⌋).toNat)))).map
            (fun p => (p.2 : ℚ) * p.1)).sum ∧
    (∀ y, y ∉ s.map Chip.id →
      (pyramidInit np (s.zip (ts.map (fun (t : ℕ) => (t : ℚ)))) m tv).1 y = m y) := by
  induction s generalizing ts m tv with
  | nil =>
    simp [pyramidInit]
  | cons c rest ih =>
    cases ts with
    | nil => simp at hlen
    | cons t tsRest =>
      simp only [List.map_cons, List.nodup_cons] at hnd
      obtain ⟨hcid, hndRest⟩ := hnd
      have hqc : 0 ≤ c.quantity := hq c (List.mem_cons_self c rest)
      have hqRest : ∀ x ∈ rest, 0 ≤ x.quantity :=
        fun x hx => hq x (List.mem_cons_of_mem c hx)
      have hlenRest : rest.length ≤ tsRest.length := by
        simpa using hlen
      have hmin : min ((t : ℕ) : ℚ) (jsFloor (c.quantity / np))
          = ((min t ((⌊c.quantity / np⌋).toNat) : ℕ) : ℚ) := by
        rw [jsFloor_toNat_cast c.quantity np hqc hnp, Nat.cast_min]
      obtain ⟨ihA, ihT, ihF⟩ := ih tsRest
        (setA m c.id (min ((t : ℕ) : ℚ) (jsFloor (c.quantity / np))))
        (tv + (min ((t : ℕ) : ℚ) (jsFloor (c.quantity / np))) * c.value)
        hndRest hqRest hlenRest
      have hstep : pyramidInit np
          (((c :: rest).zip ((t :: tsRest).map (fun (x : ℕ) => (x : ℚ))))) m tv
          = pyramidInit np (rest.zip (tsRest.map (fun (x : ℕ) => (x : ℚ))))
            (setA m c.id (min ((t : ℕ) : ℚ) (jsFloor (c.quantity / np))))
            (tv + (min ((t : ℕ) : ℚ) (jsFloor (c.quantity / np))) * c.value) := by
        rfl
      refine ⟨?_, ?_, ?_⟩
      · rw [List.map_cons, hstep]
        have hhead : (pyramidInit np (rest.zip (tsRest.map (fun (x : ℕ) => (x : ℚ))))
            (setA m c.id (min ((t : ℕ) : ℚ) (jsFloor (c.quantity / np))))
            (tv + (min ((t : ℕ) : ℚ) (jsFloor (c.quantity / np))) * c.value)).1 c.id
            = min ((t : ℕ) : ℚ) (jsFloor (c.quantity / np)) := by
          rw [ihF c.id hcid]
          simp [setA]
        rw [hhead, ihA]
        show _ = ((min t ((⌊c.quantity / np⌋).toNat)) ::
          List.zipWith min tsRest (rest.map (fun x => (⌊x.quantity / np⌋).toNat))).map
            (fun (q : ℕ) => (q : ℚ))
        rw [List.map_cons, hmin]
      · rw [hstep, ihT]
        show _ = tv + (((c.value, min t ((⌊c.quantity / np⌋).toNat)) ::
          ((rest.map Chip.value).zip (List.zipWith min tsRest
            (rest.map (fun x => (⌊x.quantity / np⌋).toNat))))).map
              (fun p => (p.2 : ℚ) * p.1)).sum
        rw [List.map_cons, List.sum_cons]
        show _ = tv + (((min t ((⌊c.quantity / np⌋).toNat) : ℕ) : ℚ) * c.value + _)
        rw [← hmin]
        ring
      · intro y hy
        simp only [List.map_cons, List.mem_cons] at hy
        push_neg at hy
        rw [hstep, ihF y hy.2]
        simp [setA, hy.1]

theorem zip_fst_snd {α β : Type _} (l : List (α × β)) :
    (l.map Prod.fst).zip (l.map Prod.snd) = l := by
  induction l with
  | nil => rfl
  | cons p rest ih => simp [ih]

theorem specPass1_fst (b : ℚ) (ps : List (ℚ × ℕ)) (tv : ℚ) :
    (specPass1 b ps tv).1.map Prod.fst = ps.map Prod.fst := by
  induction ps generalizing tv with
  | nil => simp [specPass1]
  | cons p rest ih =>
    show (p.1 :: (specPass1 b rest tv).1.map Prod.fst) = p.1 :: rest.map Prod.fst
    rw [ih tv]

theorem map_snd_cast_zip (l1 : List ℚ) (l2 : List ℕ) (h : l2.length ≤ l1.length) :
    ((l1.zip l2).map (fun p => ((p.2 : ℕ) : ℚ))) = l2.map (fun (q : ℕ) => (q : ℚ)) := by
  calc (l1.zip l2).map (fun p => ((p.2 : ℕ) : ℚ))
      = ((l1.zip l2).map Prod.snd).map (fun (q : ℕ) => (q : ℚ)) := by
        rw [List.map_map]
        rfl
    _ = l2.map (fun (q : ℕ) => (q : ℚ)) := by rw [List.map_snd_zip l1 l2 h]

theorem pyramidReduce_eq (b : ℚ) (s : List Chip) (qs : List ℕ) (m : ℕ → ℚ) (tv : ℚ)
    (hnd : (s.map Chip.id).Nodup) (hv : ∀ c ∈ s, 0 < c.value)
    (hag : s.map (fun c => m c.id) = qs.map (fun (q : ℕ) => (q : ℚ))) :
    s.map (fun c => (pyramidReduce b s m tv).1 c.id)
      = (specReduceStage b ((s.map Chip.value).zip qs) tv).1.map (fun p => (p.2 : ℚ)) ∧
    (pyramidReduce b s m tv).2
      = (specReduceStage b ((s.map Chip.value).zip qs) tv).2 := by
  have hlen : s.length = qs.length := by
    have h := congrArg List.length hag
    simpa using h
  by_cases hover : b < tv
  · cases s with
    | nil =>
      cases qs with
      | nil =>
        have hcode : pyramidReduce b [] m tv = (m, tv) := by
          rw [pyramidReduce, if_pos hover]
          rfl
        have hspec : specReduceStage b ((([] : List Chip).map Chip.value).zip []) tv
            = ([], tv) := by
          rw [specReduceStage, if_pos hover]
          rfl
        rw [hcode, hspec]
        exact ⟨rfl, rfl⟩
      | cons q qsRest => simp at hlen
    | cons c0 others =>
      cases qs with
      | nil => simp at hlen
      | cons q0 qsRest =>
        simp only [List.length_cons, Nat.succ.injEq] at hlen
        obtain ⟨pA, pT, pF⟩ := pyramidPassA_eq b (c0 :: others) (q0 :: qsRest) m tv hnd hv hag
        have hzip : (((c0 :: others).map Chip.value).zip (q0 :: qsRest))
            = (c0.value, q0) :: ((others.map Chip.value).zip qsRest) := rfl
        have hP1 : specPass1 b ((c0.value, q0) :: ((others.map Chip.value).zip qsRest)) tv
            = ((c0.value,
                (specReduce1 c0.value b q0
                  (specPass1 b ((others.map Chip.value).zip qsRest) tv).2).1)
                :: (specPass1 b ((others.map Chip.value).zip qsRest) tv).1,
              (specReduce1 c0.value b q0
                (specPass1 b ((others.map Chip.value).zip qsRest) tv).2).2) := rfl
        rw [hzip, hP1] at pA pT
        simp only [List.map_cons, List.cons.injEq] at pA
        obtain ⟨pAhead, pAtail⟩ := pA
        simp only [List.map_cons, List.nodup_cons] at hnd
        obtain ⟨hcid, hndO⟩ := hnd
        have hagB : others.map (fun c => (pyramidPassA b (c0 :: others) m tv).1 c.id)
            = ((specPass1 b ((others.map Chip.value).zip qsRest) tv).1.map Prod.snd).map
                (fun (q : ℕ) => (q : ℚ)) := by
          rw [pAtail, List.map_map]
          rfl
        obtain ⟨qA, qT, qF⟩ := pyramidPassB_eq b others
          ((specPass1 b ((others.map Chip.value).zip qsRest) tv).1.map Prod.snd)
          (pyramidPassA b (c0 :: others) m tv).1
          (pyramidPassA b (c0 :: others) m tv).2 hndO hagB
        have hPfst : (specPass1 b ((others.map Chip.value).zip qsRest) tv).1.map Prod.fst
            = others.map Chip.value := by
          rw [specPass1_fst]
          exact List.map_fst_zip _ _ (by simp [hlen])
        have hzipP : (others.map Chip.value).zip
            ((specPass1 b ((others.map Chip.value).zip qsRest) tv).1.map Prod.snd)
            = (specPass1 b ((others.map Chip.value).zip qsRest) tv).1 := by
          have h0 := zip_fst_snd (specPass1 b ((others.map Chip.value).zip qsRest) tv).1
          rw [hPfst] at h0
          exact h0
        rw [hzipP] at qA qT
        have pT' : (pyramidPassA b (c0 :: others) m tv).2
            = (specReduce1 c0.value b q0
                (specPass1 b ((others.map Chip.value).zip qsRest) tv).2).2 := pT
        have hcode : pyramidReduce b (c0 :: others) m tv
            = pyramidPassB b others (pyramidPassA b (c0 :: others) m tv).1
                (pyramidPassA b (c0 :: others) m tv).2 := by
          rw [pyramidReduce, if_pos hover]
        have hspec : specReduceStage b
            ((c0.value, q0) :: ((others.map Chip.value).zip qsRest)) tv
            = ((c0.value,
                  (specReduce1 c0.value b q0
                    (specPass1 b ((others.map Chip.value).zip qsRest) tv).2).1)
                :: (specPass2 b (specPass1 b ((others.map Chip.value).zip qsRest) tv).1
                    (specReduce1 c0.value b q0
                      (specPass1 b ((others.map Chip.value).zip qsRest) tv).2).2).1,
              (specPass2 b (specPass1 b ((others.map Chip.value).zip qsRest) tv).1
                (specReduce1 c0.value b q0
                  (specPass1 b ((others.map Chip.value).zip qsRest) tv).2).2).2) := by
          rw [specReduceStage, if_pos hover]
          rfl
        rw [hzip, hcode, hspec, ← pT']
        constructor
        · rw [List.map_cons, List.map_cons]
          refine congrArg₂ List.cons ?_ ?_
          · rw [qF c0.id hcid, pAhead]
          · exact qA
        · exact qT
  · have hcode : pyramidReduce b s m tv = (m, tv) := by
      rw [pyramidReduce, if_neg hover]
    have hspec : specReduceStage b ((s.map Chip.value).zip qs) tv
        = ((s.map Chip.value).zip qs, tv) := by
      rw [specReduceStage, if_neg hover]
    rw [hcode, hspec]
    refine ⟨?_, rfl⟩
    rw [hag]
    exact (map_snd_cast_zip _ _ (by simp [hlen])).symm

/-- **C1.** For inputs to the pyramid-variant allocator with three or more
denominations (and at most ten — the fixed target sequence
`{25,15,10,6,4,3,2,2,2,2}` defines no further entries — with data-model
conforming chips: distinct ids, positive values, non-negative inventory,
at least one player), the state reached after the over-buy-in adjustment is
exactly the claim's construction: per-denomination initial quantities
`min(target_i, floor(inventory_i/numPlayers))` assigned ascending by value,
then, if the total exceeds the buy-in, a one-chip-at-a-time decrement pass
from the largest denomination down that only fires while the running total
stays ≥ buy-in, followed by a second, unconditional decrement pass from the
largest down that excludes the smallest denomination. -/
theorem pyramid_stage_matches_claim (b np : ℚ) (chips : List Chip)
    (h3 : 3 ≤ chips.length) (h10 : chips.length ≤ 10)
    (hnd : (chips.map Chip.id).Nodup)
    (hwf : ∀ c ∈ chips, 0 < c.value ∧ 0 ≤ c.quantity) (hnp : 1 ≤ np) :
    (sortChips chips).map (fun c => (pyramidStage3 b np (sortChips chips)).1 c.id)
        = (specPyramidStage b np (sortChips chips)).1.map (fun p => (p.2 : ℚ)) ∧
    (pyramidStage3 b np (sortChips chips)).2
        = (specPyramidStage b np (sortChips chips)).2 := by
  have hperm : (sortChips chips).Perm chips := insSort_perm chipLE chips
  have hsnd : ((sortChips chips).map Chip.id).Nodup :=
    ((hperm.map Chip.id).nodup_iff).2 hnd
  have hsv : ∀ c ∈ sortChips chips, 0 < c.value :=
    fun c hc => (hwf c (hperm.mem_iff.1 hc)).1
  have hsq : ∀ c ∈ sortChips chips, 0 ≤ c.quantity :=
    fun c hc => (hwf c (hperm.mem_iff.1 hc)).2
  have hslen : (sortChips chips).length = chips.length := hperm.length_eq
  have htslen : (specBaseTargets.take (sortChips chips).length).length
      = (sortChips chips).length := by
    simp only [List.length_take, specBaseTargets, List.length_cons, List.length_nil]
    omega
  have hbase : baseTargets.take (sortChips chips).length
      = (specBaseTargets.take (sortChips chips).length).map (fun (t : ℕ) => (t : ℚ)) := by
    have hb : baseTargets = specBaseTargets.map (fun (t : ℕ) => (t : ℚ)) := by
      norm_num [baseTargets, specBaseTargets]
    rw [hb, List.map_take]
  obtain ⟨iA, iT, iF⟩ := pyramidInit_eq np (sortChips chips)
    (specBaseTargets.take (sortChips chips).length) (fun _ => 0) 0 hsnd hsq hnp
    (le_of_eq htslen.symm)
  rw [zero_add] at iT
  have hstage : pyramidStage3 b np (sortChips chips)
      = pyramidReduce b (sortChips chips)
          (pyramidInit np ((sortChips chips).zip
            ((specBaseTargets.take (sortChips chips).length).map
              (fun (t : ℕ) => (t : ℚ)))) (fun _ => 0) 0).1
          (pyramidInit np ((sortChips chips).zip
            ((specBaseTargets.take (sortChips chips).length).map
              (fun (t : ℕ) => (t : ℚ)))) (fun _ => 0) 0).2 := by
    rw [pyramidStage3, hbase]
  have hspec : specPyramidStage b np (sortChips chips)
      = specReduceStage b (((sortChips chips).map Chip.value).zip
          (List.zipWith min (specBaseTargets.take (sortChips chips).length)
            ((sortChips chips).map (fun c => (⌊c.quantity / np⌋).toNat))))
          (((((sortChips chips).map Chip.value).zip
            (List.zipWith min (specBaseTargets.take (sortChips chips).length)
              ((sortChips chips).map (fun c => (⌊c.quantity / np⌋).toNat)))).map
                (fun p => (p.2 : ℚ) * p.1)).sum) := rfl
  obtain ⟨rA, rT⟩ := pyramidReduce_eq b (sortChips chips)
    (List.zipWith min (specBaseTargets.take (sortChips chips).length)
      ((sortChips chips).map (fun c => (⌊c.quantity / np⌋).toNat)))
    (pyramidInit np ((sortChips chips).zip
      ((specBaseTargets.take (sortChips chips).length).map
        (fun (t : ℕ) => (t : ℚ)))) (fun _ => 0) 0).1
    (((((sortChips chips).map Chip.value).zip
      (List.zipWith min (specBaseTargets.take (sortChips chips).length)
        ((sortChips chips).map (fun c => (⌊c.quantity / np⌋).toNat)))).map
          (fun p => (p.2 : ℚ) * p.1)).sum)
    hsnd hsv iA
  rw [hstage, hspec, iT]
  exact ⟨rA, rT⟩

/-- Witness for C1 at a concrete three-denomination input. -/
theorem pyramid_stage_matches_claim_witness :
    (sortChips [⟨0, "w", "W", 200, 1⟩, ⟨1, "r", "R", 150, 5⟩, ⟨2, "b", "B", 100, 25⟩]).map
        (fun c => (pyramidStage3 100 2
          (sortChips [⟨0, "w", "W", 200, 1⟩, ⟨1, "r", "R", 150, 5⟩,
            ⟨2, "b", "B", 100, 25⟩])).1 c.id)
      = (specPyramidStage 100 2
          (sortChips [⟨0, "w", "W", 200, 1⟩, ⟨1, "r", "R", 150, 5⟩,
            ⟨2, "b", "B", 100, 25⟩])).1.map (fun p => (p.2 : ℚ)) ∧
    (pyramidStage3 100 2
        (sortChips [⟨0, "w", "W", 200, 1⟩, ⟨1, "r", "R", 150, 5⟩,
          ⟨2, "b", "B", 100, 25⟩])).2
      = (specPyramidStage 100 2
          (sortChips [⟨0, "w", "W", 200, 1⟩, ⟨1, "r", "R", 150, 5⟩,
            ⟨2, "b", "B", 100, 25⟩])).2 :=
  pyramid_stage_matches_claim 100 2
    [⟨0, "w", "W", 200, 1⟩, ⟨1, "r", "R", 150, 5⟩, ⟨2, "b", "B", 100, 25⟩]
    (by norm_num) (by norm_num) (by decide)
    (by intro c hc; fin_cases hc <;> norm_num) (by norm_num)
